import Mathlib

/-!
# Verification of the needlepoint-maker color-quantization core

This file gives a shallow embedding of the median-cut color-quantization and
grid-assembly pipeline of `src/app.js` (`ColorBox`, `medianCut`,
`findNearestColor`, `rgbToHex`, and the pure core of `processImage`), and
proves the specified properties about it.

Modelling conventions:
* JS numbers holding pixel channels are naturals (the input contract is
  integers in [0,255]); channel ranges and squared distances are integers
  (`ℤ`), since JS subtraction may go negative (`maxVolume` starts at `-1`).
* `Math.round(s / n)` for a nonnegative integer sum `s` and positive count
  `n` rounds half up, which over the rationals equals
  `⌊s / n + 1/2⌋ = (2*s + n) / (2*n)` in natural division; `avgChan` uses
  that closed form (and a theorem below connects it to the rational mean).
* JS `Array.prototype.sort` is stable (ES2019); `List.insertionSort` with a
  `≤`-style relation is stable in the same sense and models it.
* A JS `Map` keeps keys in insertion order; `bumpCount`/`tally` model
  `colorCounts.set(hex, (colorCounts.get(hex) || 0) + 1)` on an ordered
  association list, updating the first matching key or appending a new one.
* `findNearestColor` returns `none` exactly when the palette is empty, where
  the JS function would return `undefined` (and the caller would crash on
  destructuring); this situation is proved unreachable for nonempty input.
* The `processImage` model covers the pure core (lines 143-202 of
  `src/app.js`): palette construction, per-pixel classification with the
  row-major `pixelIdx` scan, frequency tally, code assignment and grid
  conversion.  Canvas I/O around it is outside the model.
-/

/-- An RGB pixel; the JS code represents it as a 3-element array `[r, g, b]`. -/
structure Pixel where
  r : ℕ
  g : ℕ
  b : ℕ
  deriving DecidableEq, Repr

/-- A `ColorBox` is determined by its pixel list; the JS class caches the
channel bounds computed by `computeBounds`, which we recompute on demand. -/
abbrev Box := List Pixel

/-- `computeBounds`: running minimum of the red channel, initialised at 255. -/
def rMinOf (ps : Box) : ℕ := ps.foldl (fun m p => min m p.r) 255

/-- `computeBounds`: running maximum of the red channel, initialised at 0. -/
def rMaxOf (ps : Box) : ℕ := ps.foldl (fun m p => max m p.r) 0

/-- `computeBounds`: running minimum of the green channel. -/
def gMinOf (ps : Box) : ℕ := ps.foldl (fun m p => min m p.g) 255

/-- `computeBounds`: running maximum of the green channel. -/
def gMaxOf (ps : Box) : ℕ := ps.foldl (fun m p => max m p.g) 0

/-- `computeBounds`: running minimum of the blue channel. -/
def bMinOf (ps : Box) : ℕ := ps.foldl (fun m p => min m p.b) 255

/-- `computeBounds`: running maximum of the blue channel. -/
def bMaxOf (ps : Box) : ℕ := ps.foldl (fun m p => max m p.b) 0

/-- `this.rRange = rMax - rMin` (JS subtraction, hence `ℤ`). -/
def rRange (ps : Box) : ℤ := (rMaxOf ps : ℤ) - (rMinOf ps : ℤ)

/-- `this.gRange = gMax - gMin`. -/
def gRange (ps : Box) : ℤ := (gMaxOf ps : ℤ) - (gMinOf ps : ℤ)

/-- `this.bRange = bMax - bMin`. -/
def bRange (ps : Box) : ℤ := (bMaxOf ps : ℤ) - (bMinOf ps : ℤ)

/-- `get longestAxis()`: 0 = R, 1 = G, 2 = B, ties prioritised R, then G. -/
def longestAxis (ps : Box) : ℕ :=
  if rRange ps ≥ gRange ps ∧ rRange ps ≥ bRange ps then 0
  else if gRange ps ≥ rRange ps ∧ gRange ps ≥ bRange ps then 1
  else 2

/-- `get volume()`: product of the three channel ranges. -/
def volume (ps : Box) : ℤ := rRange ps * gRange ps * bRange ps

/-- `a[axis]` on a pixel array: channel selection by axis index. -/
def chan (axis : ℕ) (p : Pixel) : ℕ :=
  if axis = 0 then p.r else if axis = 1 then p.g else p.b

/-- `split()`: stably sort by the longest axis (JS `sort` is stable),
cut at `Math.floor(sorted.length / 2)`, return the two halves. -/
def splitBox (ps : Box) : Box × Box :=
  let axis := longestAxis ps
  let sorted := ps.insertionSort (fun a b => chan axis a ≤ chan axis b)
  let mid := sorted.length / 2
  (sorted.take mid, sorted.drop mid)

/-- `Math.round(s / n)` for a nonnegative integer sum and count: round half
up, i.e. `⌊s/n + 1/2⌋`, computed as `(2*s + n) / (2*n)` in `ℕ` division. -/
def avgChan (s n : ℕ) : ℕ := (2 * s + n) / (2 * n)

/-- `rSum` accumulated over the box (likewise `gSum`, `bSum` below). -/
def rSumOf (ps : Box) : ℕ := ps.foldl (fun s p => s + p.r) 0

/-- `gSum` accumulated over the box. -/
def gSumOf (ps : Box) : ℕ := ps.foldl (fun s p => s + p.g) 0

/-- `bSum` accumulated over the box. -/
def bSumOf (ps : Box) : ℕ := ps.foldl (fun s p => s + p.b) 0

/-- `average()`: per-channel rounded mean of the box's pixels. -/
def average (ps : Box) : Pixel :=
  ⟨avgChan (rSumOf ps) ps.length, avgChan (gSumOf ps) ps.length,
    avgChan (bSumOf ps) ps.length⟩

/-- The `for` loop of `medianCut` that finds the index of the box with the
largest volume among boxes with more than one pixel: `i` is the index of the
head of the remaining list, `maxVol`/`best` are the accumulators
(`maxVolume` starts at `-1`, `maxIdx` at `-1`, modelled as `none`). -/
def pickBoxAux : List Box → ℕ → ℤ → Option ℕ → Option ℕ
  | [], _, _, best => best
  | bx :: rest, i, maxVol, best =>
    if 1 < bx.length ∧ maxVol < volume bx then
      pickBoxAux rest (i + 1) (volume bx) (some i)
    else
      pickBoxAux rest (i + 1) maxVol best

/-- The box-selection scan of `medianCut` over the whole list. -/
def pickBox (boxes : List Box) : Option ℕ := pickBoxAux boxes 0 (-1) none

/-- `boxes.splice(maxIdx, 1, box1, box2)`: replace the element at `i` by the
two children. -/
def splice (boxes : List Box) (i : ℕ) (b1 b2 : Box) : List Box :=
  boxes.take i ++ [b1, b2] ++ boxes.drop (i + 1)

/-- One iteration of the `while (boxes.length < maxColors)` loop: `none`
when the loop exits (guard false, or `maxIdx === -1`). -/
def medianCutStep (maxColors : ℕ) (boxes : List Box) : Option (List Box) :=
  if boxes.length < maxColors then
    match pickBox boxes with
    | none => none
    | some i =>
      let s := splitBox (boxes.getD i [])
      some (splice boxes i s.1 s.2)
  else none

/-- The `while` loop of `medianCut`, run with explicit fuel.  Each iteration
grows the list by one and the guard needs `boxes.length < maxColors`, so fuel
`maxColors` always suffices (proved below: extra fuel never changes the
result). -/
def medianCutLoop (maxColors : ℕ) : ℕ → List Box → List Box
  | 0, boxes => boxes
  | fuel + 1, boxes =>
    match medianCutStep maxColors boxes with
    | none => boxes
    | some boxes' => medianCutLoop maxColors fuel boxes'

/-- The final box list of `medianCut` for a nonempty pixel buffer. -/
def medianCutBoxes (pixels : List Pixel) (maxColors : ℕ) : List Box :=
  medianCutLoop maxColors maxColors [pixels]

/-- `medianCut(pixels, maxColors)`: empty input gives an empty palette,
otherwise the averaged colors of the final boxes, in list order. -/
def medianCut (pixels : List Pixel) (maxColors : ℕ) : List Pixel :=
  if pixels.isEmpty then [] else (medianCutBoxes pixels maxColors).map average

/-- Squared Euclidean distance `(r-pr)**2 + (g-pg)**2 + (b-pb)**2`. -/
def dist2 (p q : Pixel) : ℤ :=
  ((p.r : ℤ) - q.r) * ((p.r : ℤ) - q.r) + ((p.g : ℤ) - q.g) * ((p.g : ℤ) - q.g)
    + ((p.b : ℤ) - q.b) * ((p.b : ℤ) - q.b)

/-- `findNearestColor(r, g, b, palette)`: `minDist` starts at `Infinity` and
`nearest` at `palette[0]`, so on a nonempty palette the first entry is always
adopted and later entries replace it only on strictly smaller distance.  On
an empty palette the JS function returns `undefined`, modelled as `none`.
`nearStep` is the loop body: keep the candidate unless strictly closer. -/
def nearStep (p : Pixel) (best : Pixel × ℤ) (q' : Pixel) : Pixel × ℤ :=
  if dist2 p q' < best.2 then (q', dist2 p q') else best

/-- `findNearestColor` proper; see `nearStep`. -/
def findNearestColor (p : Pixel) : List Pixel → Option Pixel
  | [] => none
  | q :: rest => some (rest.foldl (nearStep p) (q, dist2 p q)).1

/-- `x.toString(16).padStart(2, '0').toUpperCase()` for one channel. -/
def toHexByte (n : ℕ) : String :=
  let ds := (Nat.toDigits 16 n).map Char.toUpper
  String.mk (if ds.length < 2 then '0' :: ds else ds)

/-- `rgbToHex(r, g, b)`. -/
def rgbToHex (p : Pixel) : String :=
  "#" ++ toHexByte p.r ++ toHexByte p.g ++ toHexByte p.b

/-- The code string for 1-based position `n`:
`'C' + String(n).padStart(2, '0')`. -/
def codeStr (n : ℕ) : String :=
  let ds := Nat.toDigits 10 n
  "C" ++ String.mk (if ds.length < 2 then '0' :: ds else ds)

/-- `colorCounts.set(hex, (colorCounts.get(hex) || 0) + 1)` on an
insertion-ordered association list: bump the first entry with this key, or
append a fresh entry with count 1. -/
def bumpCount : List (String × ℕ) → String → List (String × ℕ)
  | [], k => [(k, 1)]
  | (k', c) :: rest, k =>
    if k' = k then (k', c + 1) :: rest else (k', c) :: bumpCount rest k

/-- One classification-scan step of the `colorCounts` accumulation (`none`
cells, which never occur for valid input, are skipped). -/
def tallyStep (m : List (String × ℕ)) : Option String → List (String × ℕ)
  | some h => bumpCount m h
  | none => m

/-- The whole `colorCounts` map after the classification scan. -/
def tally (cells : List (Option String)) : List (String × ℕ) :=
  cells.foldl tallyStep []

/-- The hex color written at scan position `i`:
`rgbToHex(...findNearestColor(...pixels[pixelIdx], palette))`.  `none` when
the index is out of range or the palette is empty (JS `undefined`). -/
def cellHex (pixels : List Pixel) (palette : List Pixel) (i : ℕ) : Option String :=
  (pixels[i]?).bind fun p => (findNearestColor p palette).map rgbToHex

/-- `[...colorCounts.entries()].sort((a, b) => b[1] - a[1])`: stable sort by
strictly descending count (insertion order, i.e. first-seen order, is kept
among equal counts). -/
def sortedColors (counts : List (String × ℕ)) : List (String × ℕ) :=
  counts.insertionSort (fun a b => b.2 ≤ a.2)

/-- `Map.prototype.get` on an association list. -/
def lookupStr {α : Type} : List (String × α) → String → Option α
  | [], _ => none
  | (k, v) :: rest, k' => if k = k' then some v else lookupStr rest k'

/-- The record returned by `processImage`: grid of codes (a cell is `none`
only in unreachable out-of-contract situations, mirroring JS `undefined`),
`colorMap` (code → hex), `colorCounts` (code → count), `numColors`. -/
structure QuantResult where
  grid : List (List (Option String))
  colorMap : List (String × String)
  colorCounts : List (String × ℕ)
  numColors : ℕ
  deriving DecidableEq, Repr

/-- The triples `{code, hex, count}` of `sortedColors` after code assignment
(`.map(([hex, count], idx) => ({code: ..., hex, count}))`). -/
def codedColors (counts : List (String × ℕ)) : List (String × String × ℕ) :=
  (sortedColors counts).enum.map fun e => (codeStr (e.1 + 1), e.2.1, e.2.2)

/-- The pure core of `processImage` (src/app.js lines 143-202): quantize,
classify every pixel in the row-major scan, tally, assign codes by
descending frequency, and build the outputs. -/
def processImage (pixels : List Pixel) (rows cols maxColors : ℕ) : QuantResult :=
  let palette := medianCut pixels maxColors
  let cells := (List.range (rows * cols)).map (cellHex pixels palette)
  let coded := codedColors (tally cells)
  let hexToCode := coded.map fun e => (e.2.1, e.1)
  let codeToHex := coded.map fun e => (e.1, e.2.1)
  let codeCounts := coded.map fun e => (e.1, e.2.2)
  let grid := (List.range rows).map fun rr =>
    (List.range cols).map fun cc =>
      (cellHex pixels palette (rr * cols + cc)).bind (lookupStr hexToCode)
  ⟨grid, codeToHex, codeCounts, coded.length⟩

/-- The input contract of §6: the buffer has exactly `rows * cols` pixels and
every channel lies in [0, 255]. -/
def ValidBuffer (pixels : List Pixel) (rows cols : ℕ) : Prop :=
  pixels.length = rows * cols ∧
    ∀ p ∈ pixels, p.r ≤ 255 ∧ p.g ≤ 255 ∧ p.b ≤ 255

/-- The 2×2 example buffer of §8: black, white, black, red in row-major
order. -/
def examplePixels : List Pixel :=
  [⟨0, 0, 0⟩, ⟨255, 255, 255⟩, ⟨0, 0, 0⟩, ⟨255, 0, 0⟩]

/-! ## C1: the concrete 2×2 scenario -/

/-- The result the code actually produces on the §8 scenario. -/
def exampleResult : QuantResult :=
  ⟨[[some "C01", some "C02"], [some "C01", some "C02"]],
    [("C01", "#000000"), ("C02", "#FF8080")],
    [("C01", 2), ("C02", 2)], 2⟩

/-- C1 (counterexample): on the 2×2 buffer
`[(0,0,0), (255,255,255), (0,0,0), (255,0,0)]` with `maxColors = 2`, the
Partitioner does NOT produce the Palette `[(0,0,0), (255,128,0)]` claimed by
the spec: the second box holds `(255,255,255)` and `(255,0,0)`, whose blue
channel averages to `round(255/2) = 128`, not `0`. -/
theorem C1_palette_counterexample :
    ¬ (medianCut examplePixels 2 = [⟨0, 0, 0⟩, ⟨255, 128, 0⟩]) := by
  decide

/-- C1 (amended): on the 2×2 buffer with `maxColors = 2`, one split on the R
axis yields the Palette `[(0,0,0), (255,128,128)]`; pixels 0 and 2 classify
to `(0,0,0)` and pixels 1 and 3 to `(255,128,128)`; both counts are 2 and the
tie is broken by first-seen order, so black receives code `C01`; the grid is
`[[C01, C02], [C01, C02]]` and `numColors = 2`. -/
theorem C1_scenario_amended :
    medianCut examplePixels 2 = [⟨0, 0, 0⟩, ⟨255, 128, 128⟩] ∧
      processImage examplePixels 2 2 2 = exampleResult := by
  constructor
  · decide
  · decide

/-! ## C2: `maxColors < 1` is not rejected -/

/-- C2 (counterexample): with `maxColors = 0 < 1` the pipeline does not
reject the call: on the one-pixel buffer `(3,4,5)` it returns a complete,
well-formed result (one code covering the whole grid), so partitioning was
not prevented and output was produced. -/
theorem C2_no_rejection_counterexample :
    processImage [⟨3, 4, 5⟩] 1 1 0 =
      ⟨[[some "C01"]], [("C01", "#030405")], [("C01", 1)], 1⟩ := by
  decide

/-- C2 (amended): the code contains no validation of `maxColors`: for
`maxColors = 0` (the only natural below 1) the `while` guard
`boxes.length < maxColors` is false from the start exactly as for
`maxColors = 1`, so the pipeline silently behaves as if `maxColors` were 1
instead of rejecting the argument. -/
theorem C2_maxColors_zero_acts_as_one (pixels : List Pixel) (rows cols : ℕ) :
    processImage pixels rows cols 0 = processImage pixels rows cols 1 := rfl


/-! ## C7: classifier returns the first palette entry at minimal distance -/

lemma dist2_nonneg (p q : Pixel) : 0 ≤ dist2 p q := by
  unfold dist2
  have h1 := mul_self_nonneg ((p.r : ℤ) - q.r)
  have h2 := mul_self_nonneg ((p.g : ℤ) - q.g)
  have h3 := mul_self_nonneg ((p.b : ℤ) - q.b)
  linarith

lemma dist2_self (p : Pixel) : dist2 p p = 0 := by
  unfold dist2
  ring

lemma dist2_eq_zero {p q : Pixel} (h : dist2 p q = 0) : q = p := by
  unfold dist2 at h
  have h1 := mul_self_nonneg ((p.r : ℤ) - q.r)
  have h2 := mul_self_nonneg ((p.g : ℤ) - q.g)
  have h3 := mul_self_nonneg ((p.b : ℤ) - q.b)
  have hr : ((p.r : ℤ) - q.r) * ((p.r : ℤ) - q.r) = 0 := by linarith
  have hg : ((p.g : ℤ) - q.g) * ((p.g : ℤ) - q.g) = 0 := by linarith
  have hb : ((p.b : ℤ) - q.b) * ((p.b : ℤ) - q.b) = 0 := by linarith
  have hr' : p.r = q.r := by
    have := sub_eq_zero.mp (mul_self_eq_zero.mp hr)
    exact_mod_cast this
  have hg' : p.g = q.g := by
    have := sub_eq_zero.mp (mul_self_eq_zero.mp hg)
    exact_mod_cast this
  have hb' : p.b = q.b := by
    have := sub_eq_zero.mp (mul_self_eq_zero.mp hb)
    exact_mod_cast this
  cases p
  cases q
  simp_all

/-- The strict-improvement fold of `findNearestColor`: the final accumulator
holds a true (pixel, distance) pair, and the pixel is either the initial
candidate (when nothing in the remaining list beats it strictly) or the first
strictly-better minimum of the remaining list. -/
lemma nearestFoldSpec (p : Pixel) :
    ∀ (rest : List Pixel) (b : Pixel),
      ∃ q, rest.foldl (nearStep p) (b, dist2 p b) = (q, dist2 p q) ∧
        ((q = b ∧ ∀ x ∈ rest, dist2 p b ≤ dist2 p x) ∨
          ∃ l₁ l₂, rest = l₁ ++ q :: l₂ ∧ dist2 p q < dist2 p b ∧
            (∀ x ∈ l₁, dist2 p q < dist2 p x) ∧
            (∀ x ∈ l₂, dist2 p q ≤ dist2 p x)) := by
  intro rest
  induction rest with
  | nil =>
    intro b
    exact ⟨b, rfl, Or.inl ⟨rfl, by simp⟩⟩
  | cons x xs ih =>
    intro b
    by_cases hx : dist2 p x < dist2 p b
    · obtain ⟨q, hq, hcase⟩ := ih x
      refine ⟨q, ?_, Or.inr ?_⟩
      · rw [List.foldl_cons,
          show nearStep p (b, dist2 p b) x = (x, dist2 p x) from by
            simp [nearStep, hx]]
        exact hq
      · rcases hcase with ⟨rfl, hall⟩ | ⟨l₁, l₂, hsplit, hlt, h₁, h₂⟩
        · exact ⟨[], xs, by simp, hx, by simp, hall⟩
        · refine ⟨x :: l₁, l₂, by simp [hsplit], lt_trans hlt hx, ?_, h₂⟩
          intro y hy
          rcases List.mem_cons.mp hy with rfl | hy'
          · exact hlt
          · exact h₁ y hy'
    · obtain ⟨q, hq, hcase⟩ := ih b
      have hb := le_of_not_lt hx
      refine ⟨q, ?_, ?_⟩
      · rw [List.foldl_cons,
          show nearStep p (b, dist2 p b) x = (b, dist2 p b) from by
            simp [nearStep, hx]]
        exact hq
      · rcases hcase with ⟨rfl, hall⟩ | ⟨l₁, l₂, hsplit, hlt, h₁, h₂⟩
        · refine Or.inl ⟨rfl, ?_⟩
          intro y hy
          rcases List.mem_cons.mp hy with rfl | hy'
          · exact hb
          · exact hall y hy'
        · refine Or.inr ⟨x :: l₁, l₂, by simp [hsplit], hlt, ?_, h₂⟩
          intro y hy
          rcases List.mem_cons.mp hy with rfl | hy'
          · exact lt_of_lt_of_le hlt hb
          · exact h₁ y hy'

/-- The classifier picks the first palette entry attaining the minimum
distance: everything strictly before the result is strictly farther, and
everything after it is at least as far. -/
lemma findNearestColor_first_min (p : Pixel) (palette : List Pixel)
    (h : palette ≠ []) :
    ∃ q l₁ l₂, findNearestColor p palette = some q ∧
      palette = l₁ ++ q :: l₂ ∧
      (∀ x ∈ l₁, dist2 p q < dist2 p x) ∧
      (∀ x ∈ l₂, dist2 p q ≤ dist2 p x) := by
  cases palette with
  | nil => exact absurd rfl h
  | cons b rest =>
    obtain ⟨q, hq, hcase⟩ := nearestFoldSpec p rest b
    have hfind : findNearestColor p (b :: rest) = some q := by
      simp [findNearestColor, hq]
    rcases hcase with ⟨rfl, hall⟩ | ⟨l₁, l₂, hsplit, hlt, h₁, h₂⟩
    · exact ⟨q, [], rest, hfind, by simp, by simp, hall⟩
    · refine ⟨q, b :: l₁, l₂, hfind, by simp [hsplit], ?_, h₂⟩
      intro y hy
      rcases List.mem_cons.mp hy with rfl | hy'
      · exact hlt
      · exact h₁ y hy'

/-- C7: classifying any entry `c` of a nonempty Palette against that same
Palette returns exactly `c` (distance 0 is found at `c` or at an earlier
identical entry, and by the strict-improvement rule no later entry displaces
it); and in general, for any input pixel, the classifier returns the first
Palette entry in Palette order among those at minimal distance (everything
before it is strictly farther, everything after it at least as far). -/
theorem C7_classification_first_match (palette : List Pixel)
    (h : palette ≠ []) :
    (∀ c ∈ palette, findNearestColor c palette = some c) ∧
      (∀ p : Pixel, ∃ q l₁ l₂, findNearestColor p palette = some q ∧
        palette = l₁ ++ q :: l₂ ∧
        (∀ x ∈ l₁, dist2 p q < dist2 p x) ∧
        (∀ x ∈ l₂, dist2 p q ≤ dist2 p x)) := by
  refine ⟨?_, fun p => findNearestColor_first_min p palette h⟩
  intro c hc
  obtain ⟨q, l₁, l₂, hfind, hsplit, h₁, h₂⟩ :=
    findNearestColor_first_min c palette h
  have hq : q = c := by
    rw [hsplit] at hc
    rcases List.mem_append.mp hc with hc₁ | hc₂
    · have := h₁ c hc₁
      rw [dist2_self] at this
      exact absurd (lt_of_le_of_lt (dist2_nonneg c q) this) (lt_irrefl 0)
    · rcases List.mem_cons.mp hc₂ with rfl | hc₃
      · rfl
      · have := h₂ c hc₃
        rw [dist2_self] at this
        exact dist2_eq_zero (le_antisymm this (dist2_nonneg c q))
  rw [hfind, hq]

/-- Witness for C7 at the concrete palette `[(0,0,0), (255,128,128), (0,0,0)]`
(a palette with a duplicate entry, exercising the first-match rule). -/
theorem C7_classification_first_match_witness :
    (∀ c ∈ [(⟨0, 0, 0⟩ : Pixel), ⟨255, 128, 128⟩, ⟨0, 0, 0⟩],
        findNearestColor c [(⟨0, 0, 0⟩ : Pixel), ⟨255, 128, 128⟩, ⟨0, 0, 0⟩]
          = some c) ∧
      (∀ p : Pixel, ∃ q l₁ l₂,
        findNearestColor p [(⟨0, 0, 0⟩ : Pixel), ⟨255, 128, 128⟩, ⟨0, 0, 0⟩]
            = some q ∧
        [(⟨0, 0, 0⟩ : Pixel), ⟨255, 128, 128⟩, ⟨0, 0, 0⟩] = l₁ ++ q :: l₂ ∧
        (∀ x ∈ l₁, dist2 p q < dist2 p x) ∧
        (∀ x ∈ l₂, dist2 p q ≤ dist2 p x)) :=
  C7_classification_first_match [⟨0, 0, 0⟩, ⟨255, 128, 128⟩, ⟨0, 0, 0⟩]
    (by decide)

/-! ## C9: the partitioner loop terminates -/

/-- If every box is terminal (at most one pixel), the selection scan leaves
the accumulator unchanged (`maxIdx` stays `-1` when started there). -/
lemma pickBoxAux_of_terminal :
    ∀ (bs : List Box) (i : ℕ) (v : ℤ) (best : Option ℕ),
      (∀ bx ∈ bs, bx.length ≤ 1) → pickBoxAux bs i v best = best := by
  intro bs
  induction bs with
  | nil => intro i v best _; rfl
  | cons bx rest ih =>
    intro i v best h
    have hbx : bx.length ≤ 1 := h bx (by simp)
    have : ¬ (1 < bx.length ∧ v < volume bx) := by
      rintro ⟨h1, _⟩
      omega
    rw [pickBoxAux, if_neg this]
    exact ih (i + 1) v best fun b hb => h b (by simp [hb])

/-- Any index produced by the selection scan beyond those already in the
accumulator points at a box with more than one pixel. -/
lemma pickBoxAux_spec :
    ∀ (bs : List Box) (i : ℕ) (v : ℤ) (best : Option ℕ) (j : ℕ),
      pickBoxAux bs i v best = some j →
      best = some j ∨ ∃ k bx, bs[k]? = some bx ∧ j = i + k ∧ 1 < bx.length := by
  intro bs
  induction bs with
  | nil =>
    intro i v best j h
    exact Or.inl h
  | cons bx rest ih =>
    intro i v best j h
    rw [pickBoxAux] at h
    by_cases hc : 1 < bx.length ∧ v < volume bx
    · rw [if_pos hc] at h
      rcases ih (i + 1) (volume bx) (some i) j h with hbest | ⟨k, b, hk, hj, hb⟩
      · 
        refine Or.inr ⟨0, bx, by simp, ?_, hc.1⟩
        cases hbest
        omega
      · exact Or.inr ⟨k + 1, b, by simpa using hk, by omega, hb⟩
    · rw [if_neg hc] at h
      rcases ih (i + 1) v best j h with hbest | ⟨k, b, hk, hj, hb⟩
      · exact Or.inl hbest
      · exact Or.inr ⟨k + 1, b, by simpa using hk, by omega, hb⟩

/-- `pickBox` returns an in-range index of a box with more than one pixel. -/
lemma pickBox_spec {boxes : List Box} {i : ℕ} (h : pickBox boxes = some i) :
    ∃ bx, boxes[i]? = some bx ∧ 1 < bx.length := by
  rcases pickBoxAux_spec boxes 0 (-1) none i h with hbest | ⟨k, bx, hk, hj, hb⟩
  · cases hbest
  · exact ⟨bx, by rwa [hj, Nat.zero_add], hb⟩

/-- Replacing one box by its two children grows the list by exactly one. -/
lemma length_splice {boxes : List Box} {i : ℕ} (h : i < boxes.length)
    (b1 b2 : Box) : (splice boxes i b1 b2).length = boxes.length + 1 := by
  simp [splice]
  omega

/-- A successful loop iteration grows the box list by exactly one and can
only happen below the `maxColors` cap. -/
lemma medianCutStep_some {maxColors : ℕ} {boxes boxes' : List Box}
    (h : medianCutStep maxColors boxes = some boxes') :
    boxes'.length = boxes.length + 1 ∧ boxes.length < maxColors := by
  unfold medianCutStep at h
  by_cases hlt : boxes.length < maxColors
  · rw [if_pos hlt] at h
    cases hpick : pickBox boxes with
    | none => rw [hpick] at h; cases h
    | some i =>
      rw [hpick] at h
      obtain ⟨bx, hbx, _⟩ := pickBox_spec hpick
      have hi : i < boxes.length := by
        by_contra hge
        rw [List.getElem?_eq_none (by omega)] at hbx
        cases hbx
      simp only [Option.some.injEq] at h
      rw [← h]
      exact ⟨length_splice hi _ _, hlt⟩
  · rw [if_neg hlt] at h
    cases h

/-- When the cap is already reached, the loop guard fails immediately. -/
lemma medianCutStep_none_of_ge {maxColors : ℕ} {boxes : List Box}
    (h : maxColors ≤ boxes.length) : medianCutStep maxColors boxes = none := by
  unfold medianCutStep
  rw [if_neg (by omega)]

/-- Fuel sufficiency: once the remaining fuel covers the gap between the
current box count and `maxColors`, adding more fuel cannot change the loop's
result. -/
lemma medianCutLoop_fuel_add (maxColors : ℕ) :
    ∀ (fuel k : ℕ) (boxes : List Box), maxColors ≤ boxes.length + fuel →
      medianCutLoop maxColors (fuel + k) boxes = medianCutLoop maxColors fuel boxes := by
  intro fuel
  induction fuel with
  | zero =>
    intro k boxes h
    cases k with
    | zero => rfl
    | succ k' =>
      have hnone := medianCutStep_none_of_ge
        (show maxColors ≤ boxes.length by omega)
      simp [medianCutLoop, hnone]
  | succ fuel' ih =>
    intro k boxes h
    have : fuel' + 1 + k = (fuel' + k) + 1 := by omega
    rw [this, medianCutLoop, medianCutLoop]
    cases hstep : medianCutStep maxColors boxes with
    | none => rfl
    | some boxes' =>
      obtain ⟨hlen, _⟩ := medianCutStep_some hstep
      exact ih k boxes' (by omega)

/-- C9: the Partitioner's loop terminates and is a total function of its
input: running the `while` loop with any amount of fuel beyond `maxColors`
returns the very same box list `medianCutBoxes` computes, each successful
iteration grows the box count by exactly one and only fires below the
`maxColors` cap, and the loop stops as soon as no box with more than one
pixel remains. -/
theorem C9_partitioner_terminates :
    (∀ (pixels : List Pixel) (maxColors extra : ℕ),
      medianCutLoop maxColors (maxColors + extra) [pixels] =
        medianCutBoxes pixels maxColors) ∧
    (∀ (maxColors : ℕ) (boxes boxes' : List Box),
      medianCutStep maxColors boxes = some boxes' →
        boxes'.length = boxes.length + 1 ∧ boxes.length < maxColors) ∧
    (∀ (maxColors : ℕ) (boxes : List Box),
      (∀ bx ∈ boxes, bx.length ≤ 1) → medianCutStep maxColors boxes = none) := by
  refine ⟨?_, fun _ _ _ h => medianCutStep_some h, ?_⟩
  · intro pixels maxColors extra
    exact medianCutLoop_fuel_add maxColors maxColors extra [pixels] (by simp)
  · intro maxColors boxes h
    unfold medianCutStep
    by_cases hlt : boxes.length < maxColors
    · rw [if_pos hlt, pickBox, pickBoxAux_of_terminal boxes 0 (-1) none h]
    · rw [if_neg hlt]

/-- Witness for C9: on the 2×2 example, one extra unit of fuel changes
nothing; the first loop iteration grows the box list from 1 to 2 boxes; and
a list of two singleton boxes admits no further step. -/
theorem C9_partitioner_terminates_witness :
    medianCutLoop 2 3 [examplePixels] = medianCutBoxes examplePixels 2 ∧
      ([[(⟨0, 0, 0⟩ : Pixel), ⟨0, 0, 0⟩],
          [⟨255, 255, 255⟩, ⟨255, 0, 0⟩]].length = [examplePixels].length + 1 ∧
        [examplePixels].length < 2) ∧
      medianCutStep 5 [[(⟨1, 2, 3⟩ : Pixel)], [⟨4, 5, 6⟩]] = none :=
  ⟨C9_partitioner_terminates.1 examplePixels 2 1,
    C9_partitioner_terminates.2.1 2 [examplePixels] _ (by decide),
    C9_partitioner_terminates.2.2 5 [[⟨1, 2, 3⟩], [⟨4, 5, 6⟩]] (by decide)⟩

/-! ## C10: every reachable box is nonempty -/

lemma splitBox_length_fst (ps : Box) :
    (splitBox ps).1.length = ps.length / 2 := by
  simp [splitBox, List.length_take, List.length_insertionSort]
  omega

lemma splitBox_length_snd (ps : Box) :
    (splitBox ps).2.length = ps.length - ps.length / 2 := by
  simp [splitBox, List.length_drop, List.length_insertionSort]

/-- Every element of the spliced list is one of the two children or an
element of the original list. -/
lemma mem_splice {boxes : List Box} {i : ℕ} {b1 b2 bx : Box}
    (h : bx ∈ splice boxes i b1 b2) : bx = b1 ∨ bx = b2 ∨ bx ∈ boxes := by
  simp only [splice, List.mem_append, List.mem_cons,
    List.mem_singleton, List.not_mem_nil, or_false] at h
  rcases h with (h | h) | h
  · exact Or.inr (Or.inr (List.mem_of_mem_take h))
  · tauto
  · exact Or.inr (Or.inr (List.mem_of_mem_drop h))

/-- A successful loop iteration is exactly the replacement of a selected box
(with more than one pixel) by its two halves. -/
lemma medianCutStep_eq {mc : ℕ} {boxes boxes' : List Box}
    (h : medianCutStep mc boxes = some boxes') :
    ∃ i bx, boxes[i]? = some bx ∧ 1 < bx.length ∧
      boxes' = splice boxes i (splitBox bx).1 (splitBox bx).2 := by
  unfold medianCutStep at h
  by_cases hlt : boxes.length < mc
  · rw [if_pos hlt] at h
    cases hpick : pickBox boxes with
    | none => rw [hpick] at h; cases h
    | some i =>
      rw [hpick] at h
      obtain ⟨bx, hbx, hlen⟩ := pickBox_spec hpick
      have hgetD : boxes.getD i [] = bx := by
        simp [List.getD_eq_getElem?_getD, hbx]
      simp only [Option.some.injEq] at h
      exact ⟨i, bx, hbx, hlen, by rw [← h, hgetD]⟩
  · rw [if_neg hlt] at h
    cases h

/-- Any property of boxes preserved by splitting multi-pixel boxes is an
invariant of the partitioner's loop. -/
lemma medianCutLoop_invariant (P : Box → Prop)
    (hsplit : ∀ bx, P bx → 1 < bx.length →
      P (splitBox bx).1 ∧ P (splitBox bx).2) (mc : ℕ) :
    ∀ (fuel : ℕ) (boxes : List Box), (∀ bx ∈ boxes, P bx) →
      ∀ bx ∈ medianCutLoop mc fuel boxes, P bx := by
  intro fuel
  induction fuel with
  | zero =>
    intro boxes h
    simpa [medianCutLoop] using h
  | succ fuel ih =>
    intro boxes h
    cases hstep : medianCutStep mc boxes with
    | none =>
      simp only [medianCutLoop, hstep]
      exact h
    | some boxes' =>
      simp only [medianCutLoop, hstep]
      obtain ⟨i, bx, hbx, hlen, rfl⟩ := medianCutStep_eq hstep
      refine ih _ ?_
      intro b hb
      have hbxmem : bx ∈ boxes := by
        have := List.getElem?_eq_some.mp hbx
        obtain ⟨hi, hget⟩ := this
        exact hget ▸ List.getElem_mem hi
      rcases mem_splice hb with rfl | rfl | hmem
      · exact (hsplit bx (h bx hbxmem) hlen).1
      · exact (hsplit bx (h bx hbxmem) hlen).2
      · exact h b hmem

/-- Splitting preserves nonemptiness of multi-pixel boxes. -/
lemma splitBox_preserves_nonempty :
    ∀ bx : Box, bx ≠ [] → 1 < bx.length →
      (splitBox bx).1 ≠ [] ∧ (splitBox bx).2 ≠ [] := by
  intro bx _ hlen
  constructor
  · rw [← List.length_pos_iff_ne_nil, splitBox_length_fst]
    omega
  · rw [← List.length_pos_iff_ne_nil, splitBox_length_snd]
    omega

/-- C10: splitting a box with `n ≥ 2` pixels yields two nonempty children of
`⌊n/2⌋` and `n - ⌊n/2⌋` pixels, and since the Partitioner only splits boxes
with more than one pixel, every box in the final box list of a nonempty
input is nonempty — so `average()` never divides by a zero pixel count. -/
theorem C10_split_keeps_boxes_nonempty :
    (∀ ps : Box, 2 ≤ ps.length →
      (splitBox ps).1.length = ps.length / 2 ∧
      (splitBox ps).2.length = ps.length - ps.length / 2 ∧
      1 ≤ (splitBox ps).1.length ∧ 1 ≤ (splitBox ps).2.length) ∧
    (∀ (pixels : List Pixel) (maxColors : ℕ), pixels ≠ [] →
      ∀ bx ∈ medianCutBoxes pixels maxColors, bx ≠ []) := by
  constructor
  · intro ps hlen
    refine ⟨splitBox_length_fst ps, splitBox_length_snd ps, ?_, ?_⟩
    · rw [splitBox_length_fst]; omega
    · rw [splitBox_length_snd]; omega
  · intro pixels maxColors hne
    exact medianCutLoop_invariant (fun bx => bx ≠ [])
      (fun bx h hl => splitBox_preserves_nonempty bx h hl)
      maxColors maxColors [pixels] (by simpa using hne)

/-- Witness for C10 on the 2×2 example buffer with `maxColors = 3`. -/
theorem C10_split_keeps_boxes_nonempty_witness :
    ((splitBox examplePixels).1.length = examplePixels.length / 2 ∧
      (splitBox examplePixels).2.length =
        examplePixels.length - examplePixels.length / 2 ∧
      1 ≤ (splitBox examplePixels).1.length ∧
      1 ≤ (splitBox examplePixels).2.length) ∧
    ∀ bx ∈ medianCutBoxes examplePixels 3, bx ≠ [] :=
  ⟨C10_split_keeps_boxes_nonempty.1 examplePixels (by decide),
    C10_split_keeps_boxes_nonempty.2 examplePixels 3 (by decide)⟩

/-! ## Shared lemmas on averaging, tallying and the box list -/

lemma avgChan_mul {n : ℕ} (hn : 0 < n) (c : ℕ) : avgChan (n * c) n = c := by
  unfold avgChan
  rw [show 2 * (n * c) + n = n * (2 * c + 1) from by ring,
    show 2 * n = n * 2 from by ring, Nat.mul_div_mul_left _ _ hn]
  omega

/-- `Math.round(s/n)` on nonnegative integers is the floor of the rational
mean plus one half (round to nearest, ties up). -/
lemma avgChan_eq_floor (s n : ℕ) (hn : 0 < n) :
    avgChan s n = ⌊(s : ℚ) / n + 1 / 2⌋₊ := by
  have hn' : (n : ℚ) ≠ 0 := Nat.cast_ne_zero.mpr hn.ne'
  have hcast : (s : ℚ) / n + 1 / 2 = ((2 * s + n : ℕ) : ℚ) / ((2 * n : ℕ) : ℚ) := by
    push_cast
    field_simp
    ring
  rw [avgChan, hcast, Nat.floor_div_nat, Nat.floor_natCast]

lemma foldl_add_const (f : Pixel → ℕ) (c : ℕ) :
    ∀ (l : List Pixel), (∀ p ∈ l, f p = c) → ∀ (a : ℕ),
      l.foldl (fun s p => s + f p) a = a + l.length * c := by
  intro l
  induction l with
  | nil => intro _ a; simp
  | cons x xs ih =>
    intro h a
    rw [List.foldl_cons, ih (fun p hp => h p (List.mem_cons_of_mem x hp)) (a + f x),
      h x (List.mem_cons_self x xs)]
    simp [List.length_cons]
    ring

/-- The average of a nonempty uniformly-colored box is that color. -/
lemma average_const {v : Pixel} {bx : Box} (hne : bx ≠ [])
    (hall : ∀ p ∈ bx, p = v) : average bx = v := by
  have hlen : 0 < bx.length := List.length_pos_iff_ne_nil.mpr hne
  have hr : rSumOf bx = bx.length * v.r := by
    have := foldl_add_const (fun p => p.r) v.r bx (fun p hp => by rw [hall p hp]) 0
    simpa [rSumOf] using this
  have hg : gSumOf bx = bx.length * v.g := by
    have := foldl_add_const (fun p => p.g) v.g bx (fun p hp => by rw [hall p hp]) 0
    simpa [gSumOf] using this
  have hb : bSumOf bx = bx.length * v.b := by
    have := foldl_add_const (fun p => p.b) v.b bx (fun p hp => by rw [hall p hp]) 0
    simpa [bSumOf] using this
  rw [average, hr, hg, hb, avgChan_mul hlen, avgChan_mul hlen, avgChan_mul hlen]

lemma splitBox_subset (bx : Box) :
    (∀ x ∈ (splitBox bx).1, x ∈ bx) ∧ (∀ x ∈ (splitBox bx).2, x ∈ bx) := by
  constructor
  · intro x hx
    simp only [splitBox] at hx
    exact (List.mem_insertionSort _).mp (List.mem_of_mem_take hx)
  · intro x hx
    simp only [splitBox] at hx
    exact (List.mem_insertionSort _).mp (List.mem_of_mem_drop hx)

/-- The classifier's answer is always a palette entry. -/
lemma findNearestColor_mem {p q : Pixel} {palette : List Pixel}
    (h : findNearestColor p palette = some q) : q ∈ palette := by
  cases palette with
  | nil => cases h
  | cons b rest =>
    obtain ⟨q', l₁, l₂, hfind, hsplit, _, _⟩ :=
      findNearestColor_first_min p (b :: rest) (by simp)
    rw [h] at hfind
    obtain rfl := Option.some.inj hfind
    rw [hsplit]
    simp

/-- The loop never shrinks the box list. -/
lemma medianCutLoop_ge_one (mc : ℕ) :
    ∀ (fuel : ℕ) (boxes : List Box), 1 ≤ boxes.length →
      1 ≤ (medianCutLoop mc fuel boxes).length := by
  intro fuel
  induction fuel with
  | zero =>
    intro boxes h
    simpa [medianCutLoop] using h
  | succ fuel ih =>
    intro boxes h
    cases hstep : medianCutStep mc boxes with
    | none => simpa only [medianCutLoop, hstep] using h
    | some boxes' =>
      simp only [medianCutLoop, hstep]
      obtain ⟨hlen, _⟩ := medianCutStep_some hstep
      exact ih boxes' (by omega)

lemma foldl_bump_replicate (h : String) :
    ∀ (n k : ℕ),
      List.foldl tallyStep [(h, k)] (List.replicate n (some h)) = [(h, k + n)] := by
  intro n
  induction n with
  | zero => intro k; simp
  | succ n ih =>
    intro k
    rw [List.replicate_succ, List.foldl_cons,
      show tallyStep [(h, k)] (some h) = [(h, k + 1)] from by
        simp [tallyStep, bumpCount],
      ih (k + 1), show k + 1 + n = k + (n + 1) from by omega]

/-- Tallying a constant nonempty scan gives a single entry carrying the full
pixel count. -/
lemma tally_replicate (h : String) {n : ℕ} (hn : 0 < n) :
    tally (List.replicate n (some h)) = [(h, n)] := by
  cases n with
  | zero => omega
  | succ n =>
    rw [tally, List.replicate_succ, List.foldl_cons,
      show tallyStep [] (some h) = [(h, 1)] from by simp [tallyStep, bumpCount],
      foldl_bump_replicate h n 1, show 1 + n = n + 1 from by omega]

/-- A nonempty buffer always yields a nonempty palette. -/
lemma medianCut_ne_nil {pixels : List Pixel} (hne : pixels ≠ [])
    (maxColors : ℕ) : medianCut pixels maxColors ≠ [] := by
  rw [medianCut, if_neg (by simpa [List.isEmpty_iff] using hne)]
  have h1 : 1 ≤ (medianCutBoxes pixels maxColors).length :=
    medianCutLoop_ge_one maxColors maxColors [pixels] (by simp)
  intro hmap
  rw [List.map_eq_nil_iff] at hmap
  rw [hmap] at h1
  simp at h1

/-! ## C6: uniformly colored buffers collapse to a single code -/

/-- C6: when all pixels share one RGB value `v` and the buffer is nonempty,
the pipeline returns `numColors = 1` for any `maxColors > 1`: every box the
Partitioner creates (possibly several zero-volume ones) is nonempty and
uniformly `v`, so every box averages to `v`, every pixel classifies to `v`
and the Assembler collapses everything into a single Code. -/
theorem C6_uniform_collapse (v : Pixel) (pixels : List Pixel)
    (rows cols maxColors : ℕ) (hne : pixels ≠ [])
    (hall : ∀ p ∈ pixels, p = v) (hlen : pixels.length = rows * cols)
    (hmc : 1 < maxColors) :
    (processImage pixels rows cols maxColors).numColors = 1 := by
  have hinv : ∀ bx ∈ medianCutBoxes pixels maxColors,
      bx ≠ [] ∧ ∀ p ∈ bx, p = v := by
    refine medianCutLoop_invariant (fun bx => bx ≠ [] ∧ ∀ p ∈ bx, p = v)
      ?_ maxColors maxColors [pixels] ?_
    · rintro bx ⟨hbne, hbv⟩ hlen1
      exact ⟨⟨(splitBox_preserves_nonempty bx hbne hlen1).1,
          fun p hp => hbv p ((splitBox_subset bx).1 p hp)⟩,
        ⟨(splitBox_preserves_nonempty bx hbne hlen1).2,
          fun p hp => hbv p ((splitBox_subset bx).2 p hp)⟩⟩
    · intro bx hbx
      rw [List.mem_singleton] at hbx
      subst hbx
      exact ⟨hne, hall⟩
  have hpalne : medianCut pixels maxColors ≠ [] := medianCut_ne_nil hne maxColors
  have hpalv : ∀ c ∈ medianCut pixels maxColors, c = v := by
    intro c hc
    rw [medianCut, if_neg (by simpa [List.isEmpty_iff] using hne)] at hc
    obtain ⟨bx, hbx, rfl⟩ := List.mem_map.mp hc
    exact average_const (hinv bx hbx).1 (hinv bx hbx).2
  have hcell : ∀ i ∈ List.range (rows * cols),
      cellHex pixels (medianCut pixels maxColors) i = some (rgbToHex v) := by
    intro i hi
    rw [List.mem_range] at hi
    have hilen : i < pixels.length := by omega
    have hp : pixels[i]? = some pixels[i] := List.getElem?_eq_getElem hilen
    obtain ⟨q, l₁, l₂, hfind, hsplit2, _, _⟩ :=
      findNearestColor_first_min pixels[i] (medianCut pixels maxColors) hpalne
    have hq : q = v := hpalv q (findNearestColor_mem hfind)
    simp [cellHex, hp, hfind, hq]
  have hcells : (List.range (rows * cols)).map
      (cellHex pixels (medianCut pixels maxColors)) =
      List.replicate (rows * cols) (some (rgbToHex v)) := by
    rw [List.map_congr_left hcell]
    simp
  have hn : 0 < rows * cols := by
    have := List.length_pos_iff_ne_nil.mpr hne
    omega
  simp only [processImage]
  rw [hcells, tally_replicate _ hn]
  rfl

/-- Witness for C6: a 2×1 buffer of two equal pixels with `maxColors = 2`. -/
theorem C6_uniform_collapse_witness :
    (processImage [⟨7, 7, 7⟩, ⟨7, 7, 7⟩] 2 1 2).numColors = 1 :=
  C6_uniform_collapse ⟨7, 7, 7⟩ [⟨7, 7, 7⟩, ⟨7, 7, 7⟩] 2 1 2
    (by decide) (by decide) (by decide) (by decide)

/-! ## C5: `maxColors = 1` yields one code with the rounded mean color -/

/-- With `maxColors = 1` the loop guard fails immediately, so the palette is
the average of the whole buffer. -/
lemma medianCut_one {pixels : List Pixel} (hne : pixels ≠ []) :
    medianCut pixels 1 = [average pixels] := by
  rw [medianCut, if_neg (by simpa [List.isEmpty_iff] using hne)]
  rfl

/-- C5: on a nonempty valid buffer, `maxColors = 1` yields exactly one Code
whose color is the per-channel arithmetic mean of every input pixel, rounded
to the nearest integer with ties rounding up (`avgChan s n` is exactly
`⌊s/n + 1/2⌋` of the rational mean). -/
theorem C5_maxColors_one_mean (pixels : List Pixel) (rows cols : ℕ)
    (hne : pixels ≠ []) (hlen : pixels.length = rows * cols) :
    (processImage pixels rows cols 1).numColors = 1 ∧
      (processImage pixels rows cols 1).colorMap =
        [(codeStr 1, rgbToHex (average pixels))] ∧
      (∀ s n : ℕ, 0 < n → avgChan s n = ⌊(s : ℚ) / n + 1 / 2⌋₊) := by
  have hcell : ∀ i ∈ List.range (rows * cols),
      cellHex pixels (medianCut pixels 1) i =
        some (rgbToHex (average pixels)) := by
    intro i hi
    rw [List.mem_range] at hi
    have hilen : i < pixels.length := by omega
    have hp : pixels[i]? = some pixels[i] := List.getElem?_eq_getElem hilen
    rw [medianCut_one hne]
    simp [cellHex, hp, findNearestColor]
  have hcells : (List.range (rows * cols)).map
      (cellHex pixels (medianCut pixels 1)) =
      List.replicate (rows * cols) (some (rgbToHex (average pixels))) := by
    rw [List.map_congr_left hcell]
    simp
  have hn : 0 < rows * cols := by
    have := List.length_pos_iff_ne_nil.mpr hne
    omega
  refine ⟨?_, ?_, fun s n hn' => avgChan_eq_floor s n hn'⟩
  · simp only [processImage]
    rw [hcells, tally_replicate _ hn]
    rfl
  · simp only [processImage]
    rw [hcells, tally_replicate _ hn]
    rfl

/-- Witness for C5 on the 1×2 buffer `[(1,2,3), (2,3,4)]` (mean
`(1.5, 2.5, 3.5)` rounds up to `(2,3,4)`), with the rounding identity
instantiated at `3/2`. -/
theorem C5_maxColors_one_mean_witness :
    (processImage [⟨1, 2, 3⟩, ⟨2, 3, 4⟩] 1 2 1).numColors = 1 ∧
      (processImage [⟨1, 2, 3⟩, ⟨2, 3, 4⟩] 1 2 1).colorMap =
        [(codeStr 1, rgbToHex (average [⟨1, 2, 3⟩, ⟨2, 3, 4⟩]))] ∧
      avgChan 3 2 = ⌊(3 : ℚ) / 2 + 1 / 2⌋₊ :=
  ⟨(C5_maxColors_one_mean [⟨1, 2, 3⟩, ⟨2, 3, 4⟩] 1 2 (by decide) (by decide)).1,
    (C5_maxColors_one_mean [⟨1, 2, 3⟩, ⟨2, 3, 4⟩] 1 2 (by decide) (by decide)).2.1,
    (C5_maxColors_one_mean [⟨1, 2, 3⟩, ⟨2, 3, 4⟩] 1 2 (by decide) (by decide)).2.2
      3 2 (by norm_num)⟩

/-! ## C4: never more codes than requested -/

/-- The loop respects the `maxColors` cap. -/
lemma medianCutLoop_length_le (mc : ℕ) :
    ∀ (fuel : ℕ) (boxes : List Box), boxes.length ≤ mc →
      (medianCutLoop mc fuel boxes).length ≤ mc := by
  intro fuel
  induction fuel with
  | zero =>
    intro boxes h
    simpa [medianCutLoop] using h
  | succ fuel ih =>
    intro boxes h
    cases hstep : medianCutStep mc boxes with
    | none => simpa only [medianCutLoop, hstep] using h
    | some boxes' =>
      simp only [medianCutLoop, hstep]
      obtain ⟨hlen, hlt⟩ := medianCutStep_some hstep
      exact ih boxes' (by omega)

/-- The palette never holds more than `maxColors` colors (for
`maxColors ≥ 1`). -/
lemma medianCut_length_le {pixels : List Pixel} {maxColors : ℕ}
    (hmc : 1 ≤ maxColors) :
    (medianCut pixels maxColors).length ≤ maxColors := by
  rw [medianCut]
  by_cases he : pixels.isEmpty
  · simp [he]
  · rw [if_neg he, List.length_map]
    exact medianCutLoop_length_le maxColors maxColors [pixels] (by simpa using hmc)

/-- `Map.set(k, get(k)+1)` keeps the key list unchanged when the key is
present and appends it otherwise. -/
lemma bumpCount_keys (m : List (String × ℕ)) (h : String) :
    (bumpCount m h).map Prod.fst =
      if h ∈ m.map Prod.fst then m.map Prod.fst else m.map Prod.fst ++ [h] := by
  induction m with
  | nil => simp [bumpCount]
  | cons kv rest ih =>
    obtain ⟨k, c⟩ := kv
    by_cases hk : k = h
    · subst hk
      simp [bumpCount]
    · rw [bumpCount, if_neg hk]
      by_cases hmem : h ∈ rest.map Prod.fst
      · simp only [List.map_cons, ih, if_pos hmem]
        rw [if_pos (by simp [hmem])]
      · simp only [List.map_cons, ih, if_neg hmem]
        rw [if_neg (by simp [hmem, Ne.symm hk])]
        simp

lemma bumpCount_keys_nodup {m : List (String × ℕ)} (h : String)
    (hnd : (m.map Prod.fst).Nodup) : ((bumpCount m h).map Prod.fst).Nodup := by
  rw [bumpCount_keys]
  by_cases hmem : h ∈ m.map Prod.fst
  · rwa [if_pos hmem]
  · rw [if_neg hmem]
    simp [List.nodup_append, hnd, hmem]

lemma bumpCount_keys_subset {m : List (String × ℕ)} {h k : String}
    (hk : k ∈ (bumpCount m h).map Prod.fst) :
    k ∈ m.map Prod.fst ∨ k = h := by
  rw [bumpCount_keys] at hk
  by_cases hmem : h ∈ m.map Prod.fst
  · rw [if_pos hmem] at hk
    exact Or.inl hk
  · rw [if_neg hmem] at hk
    simpa using List.mem_append.mp hk

/-- The classification tally has pairwise-distinct keys. -/
lemma tally_keys_nodup :
    ∀ (cells : List (Option String)) (m : List (String × ℕ)),
      (m.map Prod.fst).Nodup →
      ((cells.foldl tallyStep m).map Prod.fst).Nodup := by
  intro cells
  induction cells with
  | nil => intro m h; simpa using h
  | cons oh rest ih =>
    intro m h
    rw [List.foldl_cons]
    cases oh with
    | none => exact ih m h
    | some hh => exact ih _ (bumpCount_keys_nodup hh h)

/-- Every tally key is a hex that occurs in some `some` cell. -/
lemma tally_keys_mem :
    ∀ (cells : List (Option String)) (m : List (String × ℕ)) (k : String),
      k ∈ (cells.foldl tallyStep m).map Prod.fst →
      k ∈ m.map Prod.fst ∨ some k ∈ cells := by
  intro cells
  induction cells with
  | nil =>
    intro m k h
    exact Or.inl h
  | cons oh rest ih =>
    intro m k h
    rw [List.foldl_cons] at h
    cases oh with
    | none =>
      rcases ih m k h with h' | h'
      · exact Or.inl h'
      · exact Or.inr (by simp [h'])
    | some hh =>
      rcases ih _ k h with h' | h'
      · rcases bumpCount_keys_subset h' with h'' | rfl
        · exact Or.inl h''
        · exact Or.inr (by simp)
      · exact Or.inr (by simp [h'])

/-- A nodup list included in another is no longer than it. -/
lemma nodup_subset_length {d l : List String} (hnd : d.Nodup)
    (hsub : ∀ x ∈ d, x ∈ l) : d.length ≤ l.length := by
  have h1 : d.toFinset.card = d.length := List.toFinset_card_of_nodup hnd
  have h2 : d.toFinset ⊆ l.toFinset := by
    intro x hx
    rw [List.mem_toFinset] at hx
    rw [List.mem_toFinset]
    exact hsub x hx
  calc d.length = d.toFinset.card := h1.symm
    _ ≤ l.toFinset.card := Finset.card_le_card h2
    _ ≤ l.length := List.toFinset_card_le l

/-- C4: for every nonempty valid buffer and `maxColors ≥ 1`, the number of
returned codes is at most `maxColors` (fewer is possible when distinct boxes
average to the same RGB value and collapse into one code). -/
theorem C4_numColors_le_maxColors (pixels : List Pixel)
    (rows cols maxColors : ℕ) (hne : pixels ≠ [])
    (hvalid : ValidBuffer pixels rows cols) (hmc : 1 ≤ maxColors) :
    (processImage pixels rows cols maxColors).numColors ≤ maxColors := by
  simp only [processImage]
  have hkeys :
      ∀ k ∈ ((tally ((List.range (rows * cols)).map
          (cellHex pixels (medianCut pixels maxColors)))).map Prod.fst),
        k ∈ (medianCut pixels maxColors).map rgbToHex := by
    intro k hk
    rcases tally_keys_mem _ [] k hk with h | h
    · simp at h
    · obtain ⟨i, _, hcell⟩ := List.mem_map.mp h
      simp only [cellHex] at hcell
      obtain ⟨p, hp, hpc⟩ := Option.bind_eq_some.mp hcell
      obtain ⟨q, hfind, hq⟩ := Option.map_eq_some'.mp hpc
      exact hq ▸ List.mem_map_of_mem rgbToHex (findNearestColor_mem hfind)
  have hnd := tally_keys_nodup ((List.range (rows * cols)).map
    (cellHex pixels (medianCut pixels maxColors))) [] (by simp)
  have hlen := nodup_subset_length hnd hkeys
  have hpal : (medianCut pixels maxColors).length ≤ maxColors := medianCut_length_le hmc
  have hnum : (codedColors (tally ((List.range (rows * cols)).map
      (cellHex pixels (medianCut pixels maxColors))))).length =
      ((tally ((List.range (rows * cols)).map
        (cellHex pixels (medianCut pixels maxColors)))).map Prod.fst).length := by
    simp [codedColors, sortedColors, List.length_insertionSort]
  rw [hnum]
  calc ((tally _).map Prod.fst).length
      ≤ ((medianCut pixels maxColors).map rgbToHex).length := hlen
    _ = (medianCut pixels maxColors).length := List.length_map _ _
    _ ≤ maxColors := hpal

/-- Witness for C4 on the 2×2 example with `maxColors = 3`. -/
theorem C4_numColors_le_maxColors_witness :
    (processImage examplePixels 2 2 3).numColors ≤ 3 :=
  C4_numColors_le_maxColors examplePixels 2 2 3 (by decide)
    ⟨by decide, by decide⟩ (by decide)

/-! ## C3: counts sum to the pixel total; grid codes are map keys -/

lemma bumpCount_sum (m : List (String × ℕ)) (h : String) :
    ((bumpCount m h).map Prod.snd).sum = (m.map Prod.snd).sum + 1 := by
  induction m with
  | nil => simp [bumpCount]
  | cons kv rest ih =>
    obtain ⟨k, c⟩ := kv
    by_cases hk : k = h
    · subst hk
      simp [bumpCount]
      omega
    · rw [bumpCount, if_neg hk]
      simp [ih]
      omega

lemma tally_sum :
    ∀ (cells : List (Option String)) (m : List (String × ℕ)),
      ((cells.foldl tallyStep m).map Prod.snd).sum =
        (m.map Prod.snd).sum + (cells.filterMap id).length := by
  intro cells
  induction cells with
  | nil => intro m; simp
  | cons oh rest ih =>
    intro m
    rw [List.foldl_cons]
    cases oh with
    | none =>
      rw [show tallyStep m none = m from rfl, ih m]
      simp [List.filterMap_cons]
    | some h =>
      rw [ih _, show tallyStep m (some h) = bumpCount m h from rfl,
        bumpCount_sum]
      simp [List.filterMap_cons]
      omega

lemma filterMap_id_length_all_some :
    ∀ (l : List (Option String)), (∀ c ∈ l, c ≠ none) →
      (l.filterMap id).length = l.length := by
  intro l
  induction l with
  | nil => intro _; rfl
  | cons c rest ih =>
    intro h
    cases c with
    | none => exact absurd rfl (h none (by simp))
    | some x =>
      simp only [List.filterMap_cons, id, List.length_cons]
      rw [ih (fun c hc => h c (by simp [hc]))]

/-- For a buffer of the contracted length, every scan cell is a real hex. -/
lemma cellHex_isSome {pixels : List Pixel} {rows cols : ℕ}
    (hlen : pixels.length = rows * cols) (maxColors : ℕ) :
    ∀ i ∈ List.range (rows * cols),
      ∃ h, cellHex pixels (medianCut pixels maxColors) i = some h := by
  intro i hi
  rw [List.mem_range] at hi
  have hilen : i < pixels.length := by omega
  have hp : pixels[i]? = some pixels[i] := List.getElem?_eq_getElem hilen
  have hne : pixels ≠ [] := by
    intro h
    rw [h] at hilen
    simp at hilen
  obtain ⟨q, l₁, l₂, hfind, _, _, _⟩ := findNearestColor_first_min pixels[i]
    (medianCut pixels maxColors) (medianCut_ne_nil hne maxColors)
  exact ⟨rgbToHex q, by simp [cellHex, hp, hfind]⟩

lemma lookupStr_mem {α : Type} :
    ∀ (l : List (String × α)) (k : String) (v : α),
      lookupStr l k = some v → (k, v) ∈ l := by
  intro l
  induction l with
  | nil => intro k v h; cases h
  | cons kv rest ih =>
    obtain ⟨k', v'⟩ := kv
    intro k v h
    rw [lookupStr] at h
    by_cases hk : k' = k
    · rw [if_pos hk] at h
      injection h with h'
      subst h'
      subst hk
      exact List.mem_cons_self _ _
    · rw [if_neg hk] at h
      exact List.mem_cons_of_mem _ (ih k v h)

lemma sortedColors_perm (counts : List (String × ℕ)) :
    List.Perm (sortedColors counts) counts :=
  List.perm_insertionSort _ counts

lemma enum_snd_snd (l : List (String × ℕ)) :
    l.enum.map (fun e => e.2.2) = l.map Prod.snd := by
  have h : l.enum.map (fun e => e.2.2) = (l.enum.map Prod.snd).map Prod.snd := by
    rw [List.map_map]
    rfl
  rw [h, List.enum_map_snd]

/-- The run of counts carried through code assignment: the `colorCounts`
values are exactly the sorted tally counts. -/
lemma coded_snd_map (counts : List (String × ℕ)) :
    (((codedColors counts).map fun e => (e.1, e.2.2)).map Prod.snd) =
      (sortedColors counts).map Prod.snd := by
  unfold codedColors
  rw [List.map_map, List.map_map]
  show (sortedColors counts).enum.map (fun e => e.2.2) = _
  exact enum_snd_snd _

/-- C3: for every valid buffer and `maxColors ≥ 1`, the `colorCounts` values
sum to `rows * cols`, and every Code appearing in any grid cell is a key of
both `colorMap` and `colorCounts`. -/
theorem C3_counts_sum_and_grid_codes (pixels : List Pixel)
    (rows cols maxColors : ℕ) (hvalid : ValidBuffer pixels rows cols)
    (hmc : 1 ≤ maxColors) :
    (((processImage pixels rows cols maxColors).colorCounts).map Prod.snd).sum
        = rows * cols ∧
      ∀ code : String,
        (∃ row ∈ (processImage pixels rows cols maxColors).grid,
          some code ∈ row) →
        code ∈ ((processImage pixels rows cols maxColors).colorMap).map Prod.fst ∧
        code ∈ ((processImage pixels rows cols maxColors).colorCounts).map Prod.fst := by
  obtain ⟨hlen, -⟩ := hvalid
  have hallsome : ∀ c ∈ (List.range (rows * cols)).map
      (cellHex pixels (medianCut pixels maxColors)), c ≠ none := by
    intro c hc
    obtain ⟨i, hi, rfl⟩ := List.mem_map.mp hc
    obtain ⟨h, hh⟩ := cellHex_isSome hlen maxColors i hi
    simp [hh]
  constructor
  · simp only [processImage]
    rw [coded_snd_map, ((sortedColors_perm _).map Prod.snd).sum_eq]
    have hts := tally_sum ((List.range (rows * cols)).map
      (cellHex pixels (medianCut pixels maxColors))) []
    rw [show tally ((List.range (rows * cols)).map
        (cellHex pixels (medianCut pixels maxColors))) =
        ((List.range (rows * cols)).map
          (cellHex pixels (medianCut pixels maxColors))).foldl tallyStep []
      from rfl, hts, filterMap_id_length_all_some _ hallsome]
    simp
  · intro code hcode
    obtain ⟨row, hrow, hmemrow⟩ := hcode
    simp only [processImage] at hrow hmemrow ⊢
    obtain ⟨rr, -, rfl⟩ := List.mem_map.mp hrow
    obtain ⟨cc, -, hc2⟩ := List.mem_map.mp hmemrow
    obtain ⟨hx, -, hlook⟩ := Option.bind_eq_some.mp hc2
    have hmem := lookupStr_mem _ _ _ hlook
    obtain ⟨e, he, heq⟩ := List.mem_map.mp hmem
    have hcode_eq : e.1 = code := congrArg Prod.snd heq
    constructor
    · exact List.mem_map.mpr ⟨(e.1, e.2.1), List.mem_map_of_mem _ he, hcode_eq⟩
    · exact List.mem_map.mpr ⟨(e.1, e.2.2), List.mem_map_of_mem _ he, hcode_eq⟩

/-- Witness for C3 on the 2×2 example with `maxColors = 2`: counts sum to 4
and both grid codes are keys of the two maps. -/
theorem C3_counts_sum_and_grid_codes_witness :
    (((processImage examplePixels 2 2 2).colorCounts).map Prod.snd).sum
        = 2 * 2 ∧
      ∀ code : String,
        (∃ row ∈ (processImage examplePixels 2 2 2).grid, some code ∈ row) →
        code ∈ ((processImage examplePixels 2 2 2).colorMap).map Prod.fst ∧
        code ∈ ((processImage examplePixels 2 2 2).colorCounts).map Prod.fst :=
  C3_counts_sum_and_grid_codes examplePixels 2 2 2
    ⟨by decide, by decide⟩ (by decide)

/-! ## C8: codes are assigned by descending count, ties by first-seen order -/

instance : IsTotal (String × ℕ) (fun a b => b.2 ≤ a.2) :=
  ⟨fun a b => le_total b.2 a.2⟩

instance : IsTrans (String × ℕ) (fun a b => b.2 ≤ a.2) :=
  ⟨fun _ _ _ hab hbc => le_trans hbc hab⟩

/-- Inserting into a sorted-by-descending-count list puts the new entry
before every entry of the same count: the filter at any fixed count value
gains the new entry at the front (insertion never reorders a tie class). -/
lemma filter_orderedInsert (a : String × ℕ) (n : ℕ) :
    ∀ l : List (String × ℕ),
      (List.orderedInsert (fun x y => y.2 ≤ x.2) a l).filter
          (fun e => e.2 = n) =
        if a.2 = n then a :: l.filter (fun e => e.2 = n)
        else l.filter (fun e => e.2 = n) := by
  intro l
  induction l with
  | nil =>
    by_cases ha : a.2 = n <;> simp [List.orderedInsert, List.filter_cons, ha]
  | cons b t ih =>
    by_cases hab : b.2 ≤ a.2
    · rw [List.orderedInsert, if_pos hab]
      by_cases ha : a.2 = n <;> simp [List.filter_cons, ha]
    · rw [List.orderedInsert, if_neg hab]
      have hb : a.2 < b.2 := Nat.lt_of_not_le hab
      by_cases ha : a.2 = n
      · have hbn : ¬(b.2 = n) := by omega
        simp [List.filter_cons, hbn, ih, ha]
      · simp [List.filter_cons, ih, ha]

/-- Stability of the Assembler's sort: within each count value the sorted
list preserves the original (first-seen) order exactly. -/
lemma filter_sortedColors_stable (n : ℕ) :
    ∀ l : List (String × ℕ),
      (sortedColors l).filter (fun e => e.2 = n) =
        l.filter (fun e => e.2 = n) := by
  intro l
  unfold sortedColors
  induction l with
  | nil => rfl
  | cons a t ih =>
    rw [List.insertionSort, filter_orderedInsert]
    by_cases ha : a.2 = n
    · rw [if_pos ha, ih]
      simp [List.filter_cons, ha]
    · rw [if_neg ha, ih]
      simp [List.filter_cons, ha]

/-- §4.4 step 2 of the spec, stated in the spec's own words: the list of
distinct RGB values (hex keys) in first-seen order during the row-major
scan. -/
def specFirstSeenKeys (hexes : List String) : List String :=
  hexes.foldl (fun acc h => if h ∈ acc then acc else acc ++ [h]) []

/-- The tally's key list is exactly the first-seen list of the scan. -/
lemma tally_keys_firstSeen :
    ∀ (cells : List (Option String)) (m : List (String × ℕ)),
      (cells.foldl tallyStep m).map Prod.fst =
        (cells.filterMap id).foldl
          (fun acc h => if h ∈ acc then acc else acc ++ [h])
          (m.map Prod.fst) := by
  intro cells
  induction cells with
  | nil => intro m; rfl
  | cons oh rest ih =>
    intro m
    cases oh with
    | none =>
      rw [List.foldl_cons, show tallyStep m none = m from rfl]
      simpa [List.filterMap_cons] using ih m
    | some h =>
      rw [List.foldl_cons, show tallyStep m (some h) = bumpCount m h from rfl,
        ih _]
      rw [List.filterMap_cons]
      simp only [id]
      rw [List.foldl_cons, bumpCount_keys]

/-- The classification scan of `processImage`, as a named list: the cell hex
at every row-major position. -/
def scanCells (pixels : List Pixel) (rows cols maxColors : ℕ) :
    List (Option String) :=
  (List.range (rows * cols)).map (cellHex pixels (medianCut pixels maxColors))

/-- C8: the Assembler assigns the Codes `C01, C02, ...` to the distinct
classified hex colors following a list `sorted` that is a permutation of the
first-seen tally, sorted by descending occurrence count, and stable: within
each count value the first-seen order of the row-major scan is preserved;
moreover the tally's key list is exactly the spec's first-seen distinct
list. -/
theorem C8_code_assignment_order (pixels : List Pixel)
    (rows cols maxColors : ℕ) :
    ∃ sorted : List (String × ℕ),
      (processImage pixels rows cols maxColors).colorMap =
        sorted.enum.map (fun e => (codeStr (e.1 + 1), e.2.1)) ∧
      (processImage pixels rows cols maxColors).colorCounts =
        sorted.enum.map (fun e => (codeStr (e.1 + 1), e.2.2)) ∧
      List.Perm sorted (tally (scanCells pixels rows cols maxColors)) ∧
      List.Sorted (fun a b => b.2 ≤ a.2) sorted ∧
      (∀ n : ℕ, sorted.filter (fun e => e.2 = n) =
        (tally (scanCells pixels rows cols maxColors)).filter
          (fun e => e.2 = n)) ∧
      (tally (scanCells pixels rows cols maxColors)).map Prod.fst =
        specFirstSeenKeys
          ((scanCells pixels rows cols maxColors).filterMap id) := by
  refine ⟨sortedColors (tally (scanCells pixels rows cols maxColors)),
    ?_, ?_, sortedColors_perm _, ?_, fun n => filter_sortedColors_stable n _,
    tally_keys_firstSeen _ []⟩
  · simp only [processImage, codedColors, scanCells]
    rw [List.map_map]
    rfl
  · simp only [processImage, codedColors, scanCells]
    rw [List.map_map]
    rfl
  · unfold sortedColors
    exact List.sorted_insertionSort _ _
